import Mathlib

/-
Verification of the message-broker core of the Real-Time-Messaging-System
repository: the acknowledged FIFO queue (src/broker/queue/MessageQueue.py),
the priority queue (src/broker/queue/PriorityQueue.py), and the
connection/room registry (src/api/websocket_gateway/ConnectionManager.py).

Python dictionaries are embedded as association lists preserving insertion
order; Python objects that are mutated through shared references (the
Message objects of MessageQueue.py) are embedded through an explicit
object store keyed by message id, so that a mutation of an object is
visible from every structure that still holds a reference to it.
Wall-clock reads (time.time()) become explicit natural-number parameters.
-/

namespace RTMS

section Assoc

variable {κ β : Type} [DecidableEq κ]

/-- Lookup in an insertion-ordered association list (Python dict read). -/
def aget : List (κ × β) → κ → Option β
  | [], _ => none
  | p :: d, k => if p.1 = k then some p.2 else aget d k

/-- Overwrite the value stored at a key (Python dict assignment to an
existing key; the key keeps its position). -/
def aset : List (κ × β) → κ → β → List (κ × β)
  | [], _, _ => []
  | p :: d, k, v => if p.1 = k then (p.1, v) :: aset d k v else p :: aset d k v

/-- Delete a key (Python `del d[k]`). -/
def adel (d : List (κ × β)) (k : κ) : List (κ × β) :=
  d.filter (fun p => p.1 ≠ k)

theorem aget_append (d e : List (κ × β)) (k : κ) :
    aget (d ++ e) k = match aget d k with
      | some v => some v
      | none => aget e k := by
  induction d with
  | nil => simp [aget]
  | cons p d ih =>
    by_cases h : p.1 = k
    · simp [aget, h]
    · simp [aget, h, ih]

theorem aget_aset_self (d : List (κ × β)) (k : κ) (v w : β)
    (h : aget d k = some w) : aget (aset d k v) k = some v := by
  induction d with
  | nil => simp [aget] at h
  | cons p d ih =>
    by_cases hk : p.1 = k
    · simp [aget, aset, hk]
    · simp [aget, aset, hk] at h ⊢
      exact ih h

theorem aget_aset_ne (d : List (κ × β)) (k j : κ) (v : β) (h : j ≠ k) :
    aget (aset d k v) j = aget d j := by
  induction d with
  | nil => simp [aset]
  | cons p d ih =>
    by_cases hk : p.1 = k
    · have hpj : p.1 ≠ j := by
        intro hpj
        exact h (hpj ▸ hk)
      simp [aget, aset, hk, hpj, ih, Ne.symm h]
    · by_cases hj : p.1 = j
      · simp [aget, aset, hk, hj, h]
      · simp [aget, aset, hk, hj, ih]

theorem akeys_aset (d : List (κ × β)) (k : κ) (v : β) :
    (aset d k v).map Prod.fst = d.map Prod.fst := by
  induction d with
  | nil => simp [aset]
  | cons p d ih =>
    by_cases hk : p.1 = k
    · simp [aset, hk, ih]
    · simp [aset, hk, ih]

theorem mem_aset (d : List (κ × β)) (k : κ) (v : β) (p : κ × β) :
    p ∈ aset d k v → p ∈ d ∨ p = (k, v) := by
  induction d with
  | nil => intro h; simp [aset] at h
  | cons q d ih =>
    intro h
    by_cases hk : q.1 = k
    · simp only [aset] at h
      rw [if_pos hk] at h
      rcases List.mem_cons.mp h with h1 | h1
      · right; rw [h1, hk]
      · rcases ih h1 with h2 | h2
        · exact Or.inl (List.mem_cons_of_mem _ h2)
        · exact Or.inr h2
    · simp only [aset] at h
      rw [if_neg hk] at h
      rcases List.mem_cons.mp h with h1 | h1
      · exact Or.inl (h1 ▸ List.mem_cons_self _ _)
      · rcases ih h1 with h2 | h2
        · exact Or.inl (List.mem_cons_of_mem _ h2)
        · exact Or.inr h2

end Assoc

/-! ## MessageQueue.py: Message and MessageQueue -/

/-- Mirrors `Message.__init__` of src/broker/queue/MessageQueue.py: a
uuid-identified envelope with a creation timestamp and an `acknowledged`
flag, false at creation.  The uuid is embedded as a Nat drawn from a
fresh-id counter, the wall-clock read `time.time()` as an explicit Nat. -/
structure Message where
  id : Nat
  content : String
  priority : Int
  timestamp : Nat
  acknowledged : Bool
deriving DecidableEq, Repr

/-- State of `MessageQueue` (src/broker/queue/MessageQueue.py lines 17-25):
`queue` is the bounded deliverable FIFO (`queue.Queue(maxsize=max_size)`),
`pending_ack` the dict of delivered-but-unacknowledged messages; both hold
references to Message objects, embedded as ids resolved in `store`, which
models the Python object heap.  `nextId` models uuid freshness. -/
structure MessageQueue where
  maxSize : Nat
  ack_timeout : Nat
  queue : List Nat
  pending_ack : List Nat
  store : List (Nat × Message)
  nextId : Nat
deriving DecidableEq, Repr

/-- `queue.Queue.put_nowait` raises `Full` exactly when the queue is
bounded (maxsize > 0) and holds at least maxsize items. -/
def MessageQueue.putFull (q : MessageQueue) : Bool :=
  0 < q.maxSize && q.maxSize ≤ q.queue.length

/-- Mirrors `MessageQueue.enqueue` (lines 27-34): a Message is constructed
unconditionally; `put_nowait` either appends it to the deliverable queue
or raises `Full`, which the bare `except:` swallows after printing; the
message object is returned to the caller in both cases. -/
def MessageQueue.enqueue (q : MessageQueue) (content : String) (priority : Int)
    (now : Nat) : Message × MessageQueue :=
  let m : Message := ⟨q.nextId, content, priority, now, false⟩
  let q1 : MessageQueue :=
    { q with store := q.store ++ [(m.id, m)], nextId := q.nextId + 1 }
  if q1.putFull then (m, q1) else (m, { q1 with queue := q1.queue ++ [m.id] })

/-- Mirrors `MessageQueue.dequeue` (lines 36-45): removes the head of the
deliverable queue and records it in `pending_ack` under its id (dict
assignment: if the id were already a key, only the value would be
replaced, keeping the key position).  Returns the id of the delivered
message, or none when the queue is empty (`Empty` caught, returns None).
`now` is the wall time of the call: the code reads no clock here, so the
result does not depend on it. -/
def MessageQueue.dequeue (q : MessageQueue) (_now : Nat) :
    Option Nat × MessageQueue :=
  match q.queue with
  | [] => (none, q)
  | i :: rest =>
      (some i,
        { q with
            queue := rest,
            pending_ack :=
              if i ∈ q.pending_ack then q.pending_ack else q.pending_ack ++ [i] })

/-- Mirrors `MessageQueue.acknowledge` (lines 47-56): if the id is a key
of `pending_ack`, pop it and set the popped object's `acknowledged` flag
(a mutation of the shared object, hence of the store); return True.
Otherwise return False without raising. -/
def MessageQueue.acknowledge (q : MessageQueue) (message_id : Nat) :
    Bool × MessageQueue :=
  if message_id ∈ q.pending_ack then
    let q1 : MessageQueue := { q with pending_ack := q.pending_ack.erase message_id }
    match aget q1.store message_id with
    | some m =>
        (true, { q1 with store := aset q1.store message_id { m with acknowledged := true } })
    | none => (true, q1)
  else (false, q)

/-- Redelivery eligibility as coded in line 62 of MessageQueue.py:
`not message.acknowledged and (now - message.timestamp) > self.ack_timeout`,
where `timestamp` is the envelope's creation time. -/
def expiredB (store : List (Nat × Message)) (tout now i : Nat) : Bool :=
  match aget store i with
  | none => false
  | some m => !m.acknowledged && decide (tout < now - m.timestamp)

/-- Loop body of `MessageQueue.requeue_unacknowledged` (lines 58-65): the
snapshot `list(self.pending_ack.items())` is walked; every eligible entry
is popped from the live dict and then `put_nowait` back onto the
deliverable queue.  `put_nowait` on a full queue raises `Full`, which
propagates and aborts the scan after the pop: the Bool result is false
exactly when the scan aborted this way. -/
def requeueStep : List Nat → Nat → MessageQueue → Bool × MessageQueue
  | [], _, q => (true, q)
  | i :: rest, now, q =>
      match aget q.store i with
      | none => requeueStep rest now q
      | some m =>
          if !m.acknowledged && decide (q.ack_timeout < now - m.timestamp) then
            let q1 : MessageQueue := { q with pending_ack := q.pending_ack.erase i }
            if q1.putFull then (false, q1)
            else requeueStep rest now { q1 with queue := q1.queue ++ [i] }
          else requeueStep rest now q

/-- Mirrors `MessageQueue.requeue_unacknowledged` (lines 58-65). -/
def MessageQueue.requeue_unacknowledged (q : MessageQueue) (now : Nat) :
    Bool × MessageQueue :=
  requeueStep q.pending_ack now q

/-- One client-visible operation on a MessageQueue, with the wall time at
which it is invoked where the code reads the clock. -/
inductive QOp where
  | enq (content : String) (priority : Int) (now : Nat)
  | deq (now : Nat)
  | ack (message_id : Nat)
  | requeue (now : Nat)

def applyQOp (q : MessageQueue) : QOp → MessageQueue
  | .enq c p t => (q.enqueue c p t).2
  | .deq t => (q.dequeue t).2
  | .ack i => (q.acknowledge i).2
  | .requeue t => (q.requeue_unacknowledged t).2

/-- `MessageQueue.__init__(max_size)`: empty deliverable queue, empty
pending dict, ack_timeout 30 seconds. -/
def initQueue (maxSize : Nat) : MessageQueue :=
  ⟨maxSize, 30, [], [], [], 0⟩

def runQOps (maxSize : Nat) (ops : List QOp) : MessageQueue :=
  ops.foldl applyQOp (initQueue maxSize)

/-- The store at id holds a not-yet-acknowledged message. -/
def flagFree (store : List (Nat × Message)) (i : Nat) : Bool :=
  match aget store i with
  | some m => !m.acknowledged
  | none => false

/-- Reachability invariant of MessageQueue states: store entries are keyed
by their message's id with fresh-id discipline, the ids resident in the
deliverable queue and the pending dict are pairwise distinct, and every
resident id resolves to an unacknowledged message. -/
def QInv (q : MessageQueue) : Prop :=
  (∀ p ∈ q.store, p.2.id = p.1 ∧ p.1 < q.nextId) ∧
  (q.store.map Prod.fst).Nodup ∧
  (q.queue ++ q.pending_ack).Nodup ∧
  (∀ i ∈ q.queue ++ q.pending_ack, flagFree q.store i = true)

/-! ## PriorityQueue.py: PriorityQueue -/

/-- State of `PriorityQueue` (src/broker/queue/PriorityQueue.py lines
7-12): a heap of `(priority, counter, message)` tuples ordered
lexicographically by Python tuple comparison (the unique counter means
comparison never reaches the message), plus the insertion counter.  The
heap is embedded as the list of its elements; `heappop` removes the
minimum. -/
structure PriorityQueue where
  queue : List (Int × Nat × String)
  counter : Nat
deriving DecidableEq, Repr

/-- Strict lexicographic order on `(priority, counter)` — the order
`heapq` uses on the stored tuples (counters are unique in reachable
states, so the third component never decides). -/
def keyLt (a b : Int × Nat × String) : Bool :=
  a.1 < b.1 || (a.1 == b.1 && a.2.1 < b.2.1)

/-- Reflexive lexicographic order on `(priority, counter)`. -/
def keyLE (a b : Int × Nat × String) : Prop :=
  a.1 < b.1 ∨ (a.1 = b.1 ∧ a.2.1 ≤ b.2.1)

/-- Minimum element of the heap contents, leftmost among equals: what
`heapq.heappop` removes. -/
def findMin : List (Int × Nat × String) → Option (Int × Nat × String)
  | [] => none
  | x :: xs =>
      match findMin xs with
      | none => some x
      | some y => some (if keyLt y x then y else x)

/-- Mirrors `PriorityQueue.enqueue` (lines 14-19): push
`(priority, counter, message)` and increment the counter. -/
def PriorityQueue.enqueue (pq : PriorityQueue) (priority : Int)
    (message : String) : PriorityQueue :=
  ⟨pq.queue ++ [(priority, pq.counter, message)], pq.counter + 1⟩

/-- Mirrors `PriorityQueue.is_empty` (lines 35-37). -/
def PriorityQueue.is_empty (pq : PriorityQueue) : Bool :=
  pq.queue.length == 0

/-- Mirrors `PriorityQueue.dequeue` (lines 21-26): raises IndexError on an
empty queue (embedded as `none`); otherwise pops the minimum tuple and
returns its `[1:]` slice `(counter, message)`. -/
def PriorityQueue.dequeue (pq : PriorityQueue) :
    Option ((Nat × String) × PriorityQueue) :=
  if pq.is_empty then none
  else
    match findMin pq.queue with
    | none => none
    | some x => some (x.2, ⟨pq.queue.erase x, pq.counter⟩)

/-- Mirrors `PriorityQueue.clear` (lines 44-48): empties the heap and
resets the counter to zero. -/
def PriorityQueue.clear (_pq : PriorityQueue) : PriorityQueue :=
  ⟨[], 0⟩

/-- One client-visible operation on a PriorityQueue. -/
inductive POp where
  | enq (priority : Int) (message : String)
  | deq
  | clear

def applyPOp (pq : PriorityQueue) : POp → PriorityQueue
  | .enq p m => pq.enqueue p m
  | .deq =>
      match pq.dequeue with
      | none => pq
      | some (_, pq') => pq'
  | .clear => pq.clear

def runPOps (ops : List POp) : PriorityQueue :=
  ops.foldl applyPOp ⟨[], 0⟩

/-- Reachability invariant of PriorityQueue states: every stored counter
is below the insertion counter, and stored counters are pairwise
distinct — within one epoch between clears no sequence number is ever
reused. -/
def PQInv (pq : PriorityQueue) : Prop :=
  (∀ e ∈ pq.queue, e.2.1 < pq.counter) ∧
  (pq.queue.map (fun e => e.2.1)).Nodup

/-! ## ConnectionManager.py: ConnectionManager -/

/-- State of `ConnectionManager`
(src/api/websocket_gateway/ConnectionManager.py lines 11-14): two
`defaultdict(list)` maps, room to live WebSocket handles and user id to
joined rooms.  WebSocket handles are embedded as Nats (object identity is
what the code compares). -/
structure ConnectionManager where
  active_connections : List (String × List Nat)
  user_rooms : List (String × List String)
deriving DecidableEq, Repr

/-- `defaultdict(list)` indexing `d[k]`: returns the stored list, or
inserts and returns an empty list — the insertion is a real mutation of
the dict, so the possibly-grown dict is returned alongside. -/
def dget {β : Type} (d : List (String × List β)) (k : String) :
    List β × List (String × List β) :=
  match aget d k with
  | some v => (v, d)
  | none => ([], d ++ [(k, [])])

/-- `d.get(k, [])`: non-mutating read with default. -/
def agetD {β : Type} (d : List (String × List β)) (k : String) : List β :=
  (aget d k).getD []

/-- Mirrors `ConnectionManager.connect` (lines 16-20):
`active_connections[room].append(websocket)` and
`user_rooms[user_id].append(room)`. -/
def ConnectionManager.connect (cm : ConnectionManager) (websocket : Nat)
    (room user_id : String) : ConnectionManager :=
  let a := dget cm.active_connections room
  let u := dget cm.user_rooms user_id
  ⟨aset a.2 room (a.1 ++ [websocket]), aset u.2 user_id (u.1 ++ [room])⟩

/-- Mirrors `ConnectionManager.disconnect` (lines 22-28).  The membership
test `websocket in self.active_connections[room]` indexes the defaultdict
(inserting an empty list for an unseen room); if the handle is present it
is removed, and an emptied room entry is deleted.  Then
`self.user_rooms[user_id].remove(room)` indexes the second defaultdict
and removes the first occurrence of `room` — raising ValueError when
`room` is absent.  The Bool result is true exactly when ValueError is
raised; the state component is the registry as left behind in either
case (the mutations preceding the raise persist). -/
def ConnectionManager.disconnect (cm : ConnectionManager) (websocket : Nat)
    (room user_id : String) : Bool × ConnectionManager :=
  let a := dget cm.active_connections room
  let ac :=
    if websocket ∈ a.1 then
      let conns := a.1.erase websocket
      if conns.isEmpty then adel a.2 room else aset a.2 room conns
    else a.2
  let u := dget cm.user_rooms user_id
  if room ∈ u.1 then (false, ⟨ac, aset u.2 user_id (u.1.erase room)⟩)
  else (true, ⟨ac, u.2⟩)

/-- Delivery loop of `ConnectionManager.broadcast` (lines 30-34): sends to
each handle in registration order with no per-handle exception handling;
`sendOk h = false` models `send_text` raising on handle `h`.  Returns the
handles on which a send was attempted (successful or not) and whether the
loop completed without an exception escaping. -/
def sendAll (sendOk : Nat → Bool) : List Nat → List Nat × Bool
  | [] => ([], true)
  | c :: rest =>
      if sendOk c then
        let r := sendAll sendOk rest
        (c :: r.1, r.2)
      else ([c], false)

/-- Mirrors `ConnectionManager.broadcast` (lines 30-34):
`connections = self.active_connections.get(room, [])`, then the
unprotected send loop. -/
def ConnectionManager.broadcast (cm : ConnectionManager) (room : String)
    (sendOk : Nat → Bool) : List Nat × Bool :=
  sendAll sendOk (agetD cm.active_connections room)

/-! ## Supporting lemmas -/

theorem findMin_cons_isSome (x : Int × Nat × String)
    (xs : List (Int × Nat × String)) : (findMin (x :: xs)).isSome = true := by
  unfold findMin
  cases findMin xs <;> simp

theorem sendAll_spec (sendOk : Nat → Bool) (l : List Nat) :
    sendAll sendOk l =
      match l.dropWhile sendOk with
      | [] => (l, true)
      | c :: _ => (l.takeWhile sendOk ++ [c], false) := by
  induction l with
  | nil => rfl
  | cons c rest ih =>
    by_cases h : sendOk c
    · simp only [sendAll, h, if_true, List.dropWhile_cons, List.takeWhile_cons, ih]
      cases hr : rest.dropWhile sendOk with
      | nil => simp
      | cons x xs => simp
    · simp only [sendAll, h, if_false, List.dropWhile_cons, List.takeWhile_cons]
      simp [h]

theorem aget_mem {κ β : Type} [DecidableEq κ] (d : List (κ × β)) (k : κ)
    (v : β) (h : aget d k = some v) : (k, v) ∈ d := by
  induction d with
  | nil => simp [aget] at h
  | cons p rest ih =>
    by_cases hk : p.1 = k
    · simp only [aget, if_pos hk, Option.some.injEq] at h
      obtain ⟨p1, p2⟩ := p
      simp only at hk h
      rw [hk, h]
      exact List.mem_cons_self _ _
    · simp only [aget, if_neg hk] at h
      exact List.mem_cons_of_mem _ (ih h)

theorem aget_append_left {κ β : Type} [DecidableEq κ] (d e : List (κ × β))
    (k : κ) (v : β) (h : aget d k = some v) : aget (d ++ e) k = some v := by
  rw [aget_append, h]

theorem agetD_append_nil {β : Type} (d : List (String × List β)) (k r : String) :
    agetD (d ++ [(k, [])]) r = agetD d r := by
  unfold agetD
  rw [aget_append]
  cases h : aget d r with
  | some v => rfl
  | none =>
    by_cases hk : k = r <;> simp [aget, hk]

theorem notMem_foldl_erase (xs : List Nat) (l : List Nat) (i : Nat)
    (h : i ∉ l) : i ∉ xs.foldl List.erase l := by
  induction xs generalizing l with
  | nil => exact h
  | cons x rest ih =>
    exact ih _ (fun hc => h (List.mem_of_mem_erase hc))

theorem notMem_foldl_erase_of_mem (xs : List Nat) (l : List Nat) (i : Nat)
    (hx : i ∈ xs) (hl : l.Nodup) : i ∉ xs.foldl List.erase l := by
  induction xs generalizing l with
  | nil => cases hx
  | cons x rest ih =>
    simp only [List.foldl_cons]
    rcases List.mem_cons.mp hx with h | h
    · subst h
      have h1 : i ∉ l.erase i := by
        intro hc
        exact absurd rfl ((List.Nodup.mem_erase_iff hl).mp hc).1
      exact notMem_foldl_erase rest _ i h1
    · exact ih (l.erase x) h (hl.erase x)

/-- Closed form of the reaper scan when the deliverable queue has room
for every snapshot entry: the scan completes, the expired entries (in
pending order) move to the tail of the deliverable queue, and each is
erased from the pending dict. -/
theorem requeueStep_ok (now : Nat) (snap : List Nat) :
    ∀ q : MessageQueue, q.queue.length + snap.length ≤ q.maxSize →
    requeueStep snap now q =
      (true,
        ⟨q.maxSize, q.ack_timeout,
          q.queue ++ snap.filter (expiredB q.store q.ack_timeout now),
          (snap.filter (expiredB q.store q.ack_timeout now)).foldl List.erase
            q.pending_ack,
          q.store, q.nextId⟩) := by
  induction snap with
  | nil =>
    intro q _
    simp [requeueStep]
  | cons i rest ih =>
    intro q hcap
    have hcap' : q.queue.length + rest.length ≤ q.maxSize := by
      simp only [List.length_cons] at hcap
      omega
    simp only [requeueStep]
    split
    next hg =>
      have hP : expiredB q.store q.ack_timeout now i = false := by
        simp [expiredB, hg]
      rw [ih q hcap']
      simp [hP]
    next m hg =>
      split
      next hguard =>
        have hP : expiredB q.store q.ack_timeout now i = true := by
          simp only [expiredB]
          rw [hg]
          exact hguard
        split
        next hfull =>
          exfalso
          simp only [MessageQueue.putFull, Bool.and_eq_true, decide_eq_true_eq] at hfull
          simp only [List.length_cons] at hcap
          omega
        next hfull =>
          rw [ih ⟨q.maxSize, q.ack_timeout, q.queue ++ [i],
                q.pending_ack.erase i, q.store, q.nextId⟩
              (by
                simp only [List.length_append, List.length_cons,
                  List.length_nil] at hcap ⊢
                omega)]
          simp [hP, List.filter_cons]
      next hguard =>
        have hgf : (!m.acknowledged && decide (q.ack_timeout < now - m.timestamp))
            = false := by
          revert hguard
          cases !m.acknowledged && decide (q.ack_timeout < now - m.timestamp) <;> simp
        have hP : expiredB q.store q.ack_timeout now i = false := by
          simp only [expiredB]
          rw [hg]
          exact hgf
        rw [ih q hcap']
        simp [hP]

/-! ## Claim theorems -/

/-- Claim C1, counterexample.  A capacity-1 queue already holding one
message: the second `enqueue` call returns the freshly created envelope
`⟨1, "b", 0, 1, false⟩` to the caller exactly as a successful call
would — the envelope is created (it is in the store and handed back), and
the result carries no `QueueFull` signal of any kind (the `Full`
exception is swallowed by the bare `except:`); only the deliverable queue
is unchanged.  This falsifies "rejected with a QueueFull signal to the
caller" and "does not create or retain a new envelope". -/
theorem c1_counterexample :
    ((initQueue 1).enqueue "a" 0 0).2.enqueue "b" 0 1 =
      (⟨1, "b", 0, 1, false⟩,
        ⟨1, 30, [0], [],
          [(0, ⟨0, "a", 0, 0, false⟩), (1, ⟨1, "b", 0, 1, false⟩)], 2⟩) := by
  decide

/-- Claim C1 (amended): enqueue at capacity is rejected non-blockingly in
the sense that the deliverable queue does not grow and does not retain
the envelope, and enqueue below capacity appends the envelope at the
tail; but in both cases a fresh envelope IS created and returned to the
caller, with no `QueueFull` signal distinguishable in the call's
result — the failure is only printed. -/
theorem c1_enqueue_capacity (q : MessageQueue) (content : String)
    (priority : Int) (now : Nat) :
    (q.enqueue content priority now).1 =
      ⟨q.nextId, content, priority, now, false⟩ ∧
    (if q.putFull then (q.enqueue content priority now).2.queue = q.queue
     else (q.enqueue content priority now).2.queue = q.queue ++ [q.nextId]) ∧
    (q.enqueue content priority now).2.store =
      q.store ++ [(q.nextId, ⟨q.nextId, content, priority, now, false⟩)] := by
  simp only [MessageQueue.enqueue, MessageQueue.putFull]
  split <;> simp_all [MessageQueue.putFull]

/-- Claim C2, counterexample.  A room with registered handles 1 and 2
where sending to handle 1 fails: the broadcast attempts handle 1 only and
the failure escapes the call (completion flag false) — handle 2 never
receives a delivery attempt, falsifying "a delivery failure raised while
sending to one handle does not prevent delivery attempts to each of the
remaining handles". -/
theorem c2_counterexample :
    ConnectionManager.broadcast
      ⟨[("lobby", [1, 2])], [("u1", ["lobby"]), ("u2", ["lobby"])]⟩
      "lobby" (fun h => h != 1) = ([1], false) := by
  decide

/-- Claim C2 (amended): broadcast sends to the room's handles in
registration order with no per-handle exception handling; the first
failing send aborts the loop, so exactly the handles up to and including
the first failure are attempted and the error propagates out of
broadcast (completion flag false); only when every send succeeds are all
handles served. -/
theorem c2_broadcast_aborts (cm : ConnectionManager) (room : String)
    (sendOk : Nat → Bool) :
    cm.broadcast room sendOk =
      match (agetD cm.active_connections room).dropWhile sendOk with
      | [] => (agetD cm.active_connections room, true)
      | c :: _ =>
          ((agetD cm.active_connections room).takeWhile sendOk ++ [c], false) :=
  sendAll_spec sendOk (agetD cm.active_connections room)

/-- Claim C3, counterexample.  Disconnecting handle 1 from room "lobby"
for user "u1" on an empty registry raises ValueError (first component
true) and is NOT a no-op on the registry: the defaultdict membership test
inserts an empty subscriber list under "lobby" and an empty membership
list under "u1", both of which persist.  This falsifies "is a no-op on
the registry state and does not raise". -/
theorem c3_counterexample :
    ConnectionManager.disconnect ⟨[], []⟩ 1 "lobby" "u1" =
      (true, ⟨[("lobby", [])], [("u1", [])]⟩) := by
  decide

/-- Claim C4, counterexample.  An envelope created (enqueued) at time 0
and dequeued at wall time 5: the pending entry still carries timestamp 0
(creation time), not 5; at time 32 its age measured from the dequeue is
32 − 5 = 27 ≤ 30 = ack_timeout, so by the claim it must not be selected
for redelivery — yet `requeue_unacknowledged` at time 32 removes it from
pending and requeues it, because the code computes 32 − 0 > 30 from the
creation timestamp. -/
theorem c4_counterexample :
    (32 - 5 ≤ 30) ∧
    (((initQueue 10).enqueue "a" 0 0).2.dequeue 5).2.pending_ack = [0] ∧
    aget (((initQueue 10).enqueue "a" 0 0).2.dequeue 5).2.store 0 =
      some ⟨0, "a", 0, 0, false⟩ ∧
    ((((initQueue 10).enqueue "a" 0 0).2.dequeue 5).2.requeue_unacknowledged
        32).2.pending_ack = [] ∧
    ((((initQueue 10).enqueue "a" 0 0).2.dequeue 5).2.requeue_unacknowledged
        32).2.queue = [0] := by
  decide

/-- Claim C5, counterexample.  Capacity-1 queue: envelope 0 is dequeued
and expires unacknowledged while envelope 1 fills the deliverable queue.
The reaper pops envelope 0 from pending, then `put_nowait` raises `Full`
(flag false): afterwards envelope 0 is in neither structure — it was
removed from pending WITHOUT being reinserted, falsifying "it is never
removed from pending without being reinserted (for example when the
deliverable sequence is at capacity)". -/
theorem c5_counterexample :
    (((((initQueue 1).enqueue "a" 0 0).2.dequeue 0).2.enqueue "b" 0
          1).2.requeue_unacknowledged 31) =
      (false,
        ⟨1, 30, [1], [],
          [(0, ⟨0, "a", 0, 0, false⟩), (1, ⟨1, "b", 0, 1, false⟩)], 2⟩) := by
  decide

/-- Claim C8 (confirmed): `acknowledge(id)` returns true, removes the
pending entry and sets the envelope's acknowledged flag in the store
exactly when the id is pending; on an absent id it returns false leaving
the state unchanged (no exception — the function is total); hence a
second acknowledge of the same id returns false. -/
theorem c8_acknowledge (q : MessageQueue) (i : Nat)
    (hnd : q.pending_ack.Nodup) :
    ((q.acknowledge i).1 = true ↔ i ∈ q.pending_ack) ∧
    ((q.acknowledge i).2.pending_ack =
      if i ∈ q.pending_ack then q.pending_ack.erase i else q.pending_ack) ∧
    (i ∈ q.pending_ack → ((q.acknowledge i).2.acknowledge i).1 = false) ∧
    (i ∉ q.pending_ack → (q.acknowledge i).2 = q) ∧
    (i ∈ q.pending_ack → ∀ m, aget q.store i = some m →
      aget (q.acknowledge i).2.store i = some { m with acknowledged := true }) := by
  by_cases hm : i ∈ q.pending_ack
  · have hnotin : i ∉ q.pending_ack.erase i := by
      intro hc
      exact absurd rfl ((List.Nodup.mem_erase_iff hnd).mp hc).1
    refine ⟨?_, ?_, ?_, ?_, ?_⟩
    · simp only [MessageQueue.acknowledge, if_pos hm]
      cases h : aget q.store i <;> simp [hm]
    · simp only [MessageQueue.acknowledge, if_pos hm]
      cases h : aget q.store i <;> simp [hm]
    · intro _
      simp only [MessageQueue.acknowledge, if_pos hm]
      cases h : aget q.store i <;>
        simp [MessageQueue.acknowledge, hnotin]
    · intro hc; exact absurd hm hc
    · intro _ m hmg
      simp only [MessageQueue.acknowledge, if_pos hm, hmg]
      exact aget_aset_self q.store i _ m hmg
  · simp [MessageQueue.acknowledge, hm]

/-- Claim C8 witness: on the state reached by enqueueing one envelope at
time 0 and dequeueing it, acknowledging id 0 behaves as stated. -/
theorem c8_acknowledge_witness :
    (([0] : List Nat).Nodup) ∧
    (((((initQueue 10).enqueue "a" 0 0).2.dequeue 0).2.acknowledge 0).1 = true ↔
      0 ∈ (((initQueue 10).enqueue "a" 0 0).2.dequeue 0).2.pending_ack) :=
  ⟨by decide,
    (c8_acknowledge (((initQueue 10).enqueue "a" 0 0).2.dequeue 0).2 0
      (by decide)).1⟩

/-- Claim C9 (confirmed): PriorityQueue dequeue fails (raises the
IndexError embedded here as `none`) exactly on the empty queue: on every
non-empty queue it returns normally, so checking `is_empty()` first
avoids the error, and emptiness is the only failure condition. -/
theorem c9_dequeue_empty_iff (pq : PriorityQueue) :
    pq.dequeue = none ↔ pq.is_empty = true := by
  cases hq : pq.queue with
  | nil =>
    have he : pq.is_empty = true := by
      simp [PriorityQueue.is_empty, hq]
    simp [PriorityQueue.dequeue, he]
  | cons x xs =>
    have he : pq.is_empty = false := by
      simp [PriorityQueue.is_empty, hq]
    have hs := findMin_cons_isSome x xs
    simp only [PriorityQueue.dequeue, he, Bool.false_eq_true, if_false, hq]
    cases h : findMin (x :: xs) with
    | none => rw [h] at hs; simp at hs
    | some y => simp

instance (q : MessageQueue) : Decidable (QInv q) := by
  unfold QInv
  infer_instance

/-- Sample envelope: created at time 0 with content "a". -/
def mA : Message := ⟨0, "a", 0, 0, false⟩

/-- Sample envelope: created at time 1 with content "b". -/
def mB : Message := ⟨1, "b", 0, 1, false⟩

/-- Sample queue state: envelope 0 delivered and pending acknowledgement
(the state reached by enqueue at time 0 followed by dequeue). -/
def sampleQ : MessageQueue := ⟨10, 30, [], [0], [(0, mA)], 1⟩

/-- Sample queue state: envelope 0 pending acknowledgement while
envelope 1 sits on the deliverable queue. -/
def sampleQ2 : MessageQueue := ⟨10, 30, [1], [0], [(0, mA), (1, mB)], 2⟩

/-- Claim C3 (amended): when the handle is not in the room's subscriber
set AND the room is in the user's membership list, disconnect does not
raise and leaves every room's subscriber set unchanged (up to the
invisible insertion of an empty default entry), removing one occurrence
of the room from the user's membership.  The unconditional membership
removal means the call is a no-op neither on the membership side nor —
when the room is absent from the user's membership — exception-free: see
the counterexample. -/
theorem c3_disconnect_when_member (cm : ConnectionManager) (ws : Nat)
    (room user : String)
    (hws : ws ∉ agetD cm.active_connections room)
    (hroom : room ∈ agetD cm.user_rooms user) :
    (cm.disconnect ws room user).1 = false ∧
    (∀ r, agetD (cm.disconnect ws room user).2.active_connections r =
        agetD cm.active_connections r) ∧
    agetD (cm.disconnect ws room user).2.user_rooms user =
      (agetD cm.user_rooms user).erase room := by
  cases hU : aget cm.user_rooms user with
  | none =>
    exfalso
    unfold agetD at hroom
    rw [hU] at hroom
    simp at hroom
  | some rooms =>
    have hroom' : room ∈ rooms := by
      unfold agetD at hroom
      rwa [hU] at hroom
    have hset : aget (aset cm.user_rooms user (rooms.erase room)) user
        = some (rooms.erase room) := aget_aset_self _ _ _ _ hU
    have hgetu : agetD cm.user_rooms user = rooms := by
      simp [agetD, hU]
    cases hA : aget cm.active_connections room with
    | some conns =>
      have hws' : ws ∉ conns := by
        unfold agetD at hws
        rwa [hA] at hws
      have hd : cm.disconnect ws room user =
          (false, ⟨cm.active_connections,
            aset cm.user_rooms user (rooms.erase room)⟩) := by
        simp only [ConnectionManager.disconnect, dget, hA, hU, if_neg hws',
          if_pos hroom']
      rw [hd]
      refine ⟨rfl, fun r => rfl, ?_⟩
      show (aget (aset cm.user_rooms user (rooms.erase room)) user).getD [] = _
      rw [hset, hgetu]
      rfl
    | none =>
      have hd : cm.disconnect ws room user =
          (false, ⟨cm.active_connections ++ [(room, [])],
            aset cm.user_rooms user (rooms.erase room)⟩) := by
        simp only [ConnectionManager.disconnect, dget, hA, hU,
          List.not_mem_nil, if_false, if_pos hroom']
      rw [hd]
      refine ⟨rfl, fun r => agetD_append_nil cm.active_connections room r, ?_⟩
      show (aget (aset cm.user_rooms user (rooms.erase room)) user).getD [] = _
      rw [hset, hgetu]
      rfl

/-- Claim C3 witness: in a registry where room "lobby" holds only handle
2 and user "u1" is a member of "lobby", disconnecting handle 1 does not
raise, leaves the subscriber sets unchanged and removes "lobby" from
"u1"'s membership. -/
theorem c3_disconnect_when_member_witness :
    ((1 : Nat) ∉ agetD (⟨[("lobby", [2])], [("u1", ["lobby"])]⟩ :
        ConnectionManager).active_connections "lobby" ∧
      "lobby" ∈ agetD (⟨[("lobby", [2])], [("u1", ["lobby"])]⟩ :
        ConnectionManager).user_rooms "u1") ∧
    (((⟨[("lobby", [2])], [("u1", ["lobby"])]⟩ :
        ConnectionManager).disconnect 1 "lobby" "u1").1 = false ∧
      (∀ r, agetD ((⟨[("lobby", [2])], [("u1", ["lobby"])]⟩ :
          ConnectionManager).disconnect 1 "lobby" "u1").2.active_connections r =
        agetD (⟨[("lobby", [2])], [("u1", ["lobby"])]⟩ :
          ConnectionManager).active_connections r) ∧
      agetD ((⟨[("lobby", [2])], [("u1", ["lobby"])]⟩ :
          ConnectionManager).disconnect 1 "lobby" "u1").2.user_rooms "u1" =
        (agetD (⟨[("lobby", [2])], [("u1", ["lobby"])]⟩ :
          ConnectionManager).user_rooms "u1").erase "lobby") :=
  ⟨⟨by decide, by decide⟩,
    c3_disconnect_when_member _ 1 "lobby" "u1" (by decide) (by decide)⟩

/-- Claim C4 (amended): dequeue moves the head envelope into the pending
index WITHOUT stamping it with the dequeue time — the call reads no
clock (its result is independent of the wall time) and leaves the store,
hence the envelope's creation timestamp, unchanged; and the reaper
selects for redelivery exactly the pending entries with
now − creation_timestamp > ack_timeout (the `expiredB` predicate over the
stored creation time), here stated under the room-for-the-scan
hypothesis that makes the scan complete. -/
theorem c4_requeue_creation_time (q : MessageQueue) (t1 t2 now : Nat)
    (hcap : q.queue.length + q.pending_ack.length ≤ q.maxSize) :
    q.dequeue t1 = q.dequeue t2 ∧
    (q.dequeue t1).2.store = q.store ∧
    q.requeue_unacknowledged now =
      (true,
        ⟨q.maxSize, q.ack_timeout,
          q.queue ++ q.pending_ack.filter (expiredB q.store q.ack_timeout now),
          (q.pending_ack.filter (expiredB q.store q.ack_timeout now)).foldl
            List.erase q.pending_ack,
          q.store, q.nextId⟩) := by
  refine ⟨rfl, ?_, requeueStep_ok now q.pending_ack q hcap⟩
  cases hq : q.queue <;> simp [MessageQueue.dequeue, hq]

/-- Claim C4 witness: on the state with envelope 0 (created at time 0)
pending, dequeue at wall times 3 and 7 agree and the reaper at time 40
redelivers by creation age. -/
theorem c4_requeue_creation_time_witness :
    (sampleQ.queue.length + sampleQ.pending_ack.length ≤ sampleQ.maxSize) ∧
    (sampleQ.dequeue 3 = sampleQ.dequeue 7 ∧
      (sampleQ.dequeue 3).2.store = sampleQ.store ∧
      sampleQ.requeue_unacknowledged 40 =
        (true,
          ⟨sampleQ.maxSize, sampleQ.ack_timeout,
            sampleQ.queue ++ sampleQ.pending_ack.filter
              (expiredB sampleQ.store sampleQ.ack_timeout 40),
            (sampleQ.pending_ack.filter
              (expiredB sampleQ.store sampleQ.ack_timeout 40)).foldl
              List.erase sampleQ.pending_ack,
            sampleQ.store, sampleQ.nextId⟩)) :=
  ⟨by decide, c4_requeue_creation_time sampleQ 3 7 40 (by decide)⟩

/-- Claim C5 (amended): provided the deliverable queue has room for the
scan, the reaper moves an expired pending entry atomically: the scan
completes, the envelope's id appears exactly once on the deliverable
queue afterwards, and its pending entry is gone.  Without that room,
put_nowait raises Full after the pop and the envelope is removed from
pending without reinsertion (see the counterexample). -/
theorem c5_requeue_atomic_move (q : MessageQueue) (now i : Nat)
    (hinv : QInv q) (hmem : i ∈ q.pending_ack)
    (hexp : expiredB q.store q.ack_timeout now i = true)
    (hcap : q.queue.length + q.pending_ack.length ≤ q.maxSize) :
    (q.requeue_unacknowledged now).1 = true ∧
    (q.requeue_unacknowledged now).2.queue.count i = 1 ∧
    i ∉ (q.requeue_unacknowledged now).2.pending_ack := by
  have hok := requeueStep_ok now q.pending_ack q hcap
  unfold MessageQueue.requeue_unacknowledged
  rw [hok]
  obtain ⟨hs, hk, hres, hflag⟩ := hinv
  have hpnd : q.pending_ack.Nodup := List.Nodup.of_append_right hres
  have hdisj := List.disjoint_of_nodup_append hres
  have hiq : i ∉ q.queue := fun hq => hdisj hq hmem
  refine ⟨rfl, ?_, ?_⟩
  · simp only [List.count_append]
    have h0 : q.queue.count i = 0 := List.count_eq_zero.mpr hiq
    have h1 : (q.pending_ack.filter (expiredB q.store q.ack_timeout now)).count i
        = q.pending_ack.count i := List.count_filter hexp
    have h2 : q.pending_ack.count i = 1 := List.count_eq_one_of_mem hpnd hmem
    rw [h0, h1, h2]
  · exact notMem_foldl_erase_of_mem _ _ _
      (List.mem_filter.mpr ⟨hmem, hexp⟩) hpnd

/-- Claim C5 witness: with envelope 0 expired in pending and room on the
deliverable queue, the reaper moves it atomically. -/
theorem c5_requeue_atomic_move_witness :
    (QInv sampleQ2 ∧ 0 ∈ sampleQ2.pending_ack ∧
      expiredB sampleQ2.store sampleQ2.ack_timeout 40 0 = true ∧
      sampleQ2.queue.length + sampleQ2.pending_ack.length ≤ sampleQ2.maxSize) ∧
    ((sampleQ2.requeue_unacknowledged 40).1 = true ∧
      (sampleQ2.requeue_unacknowledged 40).2.queue.count 0 = 1 ∧
      0 ∉ (sampleQ2.requeue_unacknowledged 40).2.pending_ack) :=
  ⟨⟨by decide, by decide, by decide, by decide⟩,
    c5_requeue_atomic_move sampleQ2 40 0 (by decide) (by decide) (by decide)
      (by decide)⟩

/-- Claim C10 (confirmed): disconnecting with a room that has no entry in
the room-to-subscribers mapping, when the room is also absent from the
user's membership, raises ValueError AND leaves the registry changed: the
defaultdict membership test has appended an empty subscriber list under
the room, which persists past the failed call, so a room entry with an
empty subscriber set exists afterwards. -/
theorem c10_failed_disconnect_mutates (cm : ConnectionManager) (ws : Nat)
    (room user : String)
    (hA : aget cm.active_connections room = none)
    (hU : room ∉ agetD cm.user_rooms user) :
    (cm.disconnect ws room user).1 = true ∧
    (cm.disconnect ws room user).2.active_connections =
      cm.active_connections ++ [(room, [])] ∧
    aget (cm.disconnect ws room user).2.active_connections room = some [] := by
  have hget : aget (cm.active_connections ++ [(room, [])]) room = some [] := by
    rw [aget_append, hA]
    simp [aget]
  cases hU2 : aget cm.user_rooms user with
  | none =>
    have hd : cm.disconnect ws room user =
        (true, ⟨cm.active_connections ++ [(room, [])],
          cm.user_rooms ++ [(user, [])]⟩) := by
      simp only [ConnectionManager.disconnect, dget, hA, hU2,
        List.not_mem_nil, if_false]
    rw [hd]
    exact ⟨rfl, rfl, hget⟩
  | some rooms =>
    have hr : room ∉ rooms := by
      intro hc
      apply hU
      unfold agetD
      rw [hU2]
      exact hc
    have hd : cm.disconnect ws room user =
        (true, ⟨cm.active_connections ++ [(room, [])], cm.user_rooms⟩) := by
      simp only [ConnectionManager.disconnect, dget, hA, hU2,
        List.not_mem_nil, if_false, if_neg hr]
    rw [hd]
    exact ⟨rfl, rfl, hget⟩

/-- Claim C10 witness: on the empty registry, disconnecting handle 1 from
room "lobby" for user "u1" raises and leaves an empty subscriber entry
for "lobby". -/
theorem c10_failed_disconnect_mutates_witness :
    (aget (⟨[], []⟩ : ConnectionManager).active_connections "lobby" = none ∧
      "lobby" ∉ agetD (⟨[], []⟩ : ConnectionManager).user_rooms "u1") ∧
    (((⟨[], []⟩ : ConnectionManager).disconnect 1 "lobby" "u1").1 = true ∧
      ((⟨[], []⟩ : ConnectionManager).disconnect 1 "lobby" "u1").2.active_connections =
        (⟨[], []⟩ : ConnectionManager).active_connections ++ [("lobby", [])] ∧
      aget ((⟨[], []⟩ : ConnectionManager).disconnect 1 "lobby"
          "u1").2.active_connections "lobby" = some []) :=
  ⟨⟨by decide, by decide⟩,
    c10_failed_disconnect_mutates _ 1 "lobby" "u1" (by decide) (by decide)⟩

/-! ## MessageQueue invariant preservation -/

theorem qinv_resident_lt (q : MessageQueue) (h : QInv q) :
    ∀ i ∈ q.queue ++ q.pending_ack, i < q.nextId := by
  intro i hi
  have hf := h.2.2.2 i hi
  unfold flagFree at hf
  cases hg : aget q.store i with
  | none =>
    rw [hg] at hf
    simp at hf
  | some m => exact (h.1 _ (aget_mem _ _ _ hg)).2

theorem aget_fresh (q : MessageQueue) (h : QInv q) :
    aget q.store q.nextId = none := by
  cases hg : aget q.store q.nextId with
  | none => rfl
  | some m =>
    have h2 := (h.1 _ (aget_mem _ _ _ hg)).2
    omega

theorem enqueue_full_eq (q : MessageQueue) (c : String) (p : Int) (t : Nat)
    (h : (0 < q.maxSize && q.maxSize ≤ q.queue.length) = true) :
    (q.enqueue c p t).2 =
      ⟨q.maxSize, q.ack_timeout, q.queue, q.pending_ack,
        q.store ++ [(q.nextId, ⟨q.nextId, c, p, t, false⟩)], q.nextId + 1⟩ := by
  simp only [MessageQueue.enqueue]
  split
  next => rfl
  next hc => exact absurd h hc

theorem enqueue_notFull_eq (q : MessageQueue) (c : String) (p : Int) (t : Nat)
    (h : (0 < q.maxSize && q.maxSize ≤ q.queue.length) = false) :
    (q.enqueue c p t).2 =
      ⟨q.maxSize, q.ack_timeout, q.queue ++ [q.nextId], q.pending_ack,
        q.store ++ [(q.nextId, ⟨q.nextId, c, p, t, false⟩)], q.nextId + 1⟩ := by
  simp only [MessageQueue.enqueue]
  split
  next hc =>
    exfalso
    have hc' : (0 < q.maxSize && q.maxSize ≤ q.queue.length) = true := hc
    rw [h] at hc'
    exact Bool.false_ne_true hc'
  next => rfl

theorem qinv_enqueue (q : MessageQueue) (c : String) (p : Int) (t : Nat)
    (h : QInv q) : QInv (q.enqueue c p t).2 := by
  obtain ⟨hs, hk, hres, hflag⟩ := h
  have hlt := qinv_resident_lt q ⟨hs, hk, hres, hflag⟩
  have hsOK : ∀ pr ∈ q.store ++ [(q.nextId, (⟨q.nextId, c, p, t, false⟩ : Message))],
      pr.2.id = pr.1 ∧ pr.1 < q.nextId + 1 := by
    intro pr hpr
    rcases List.mem_append.mp hpr with hpr | hpr
    · obtain ⟨h1, h2⟩ := hs pr hpr
      exact ⟨h1, Nat.lt_succ_of_lt h2⟩
    · simp only [List.mem_singleton] at hpr
      rw [hpr]
      exact ⟨rfl, Nat.lt_succ_self _⟩
  have hkOK : ((q.store ++
      [(q.nextId, (⟨q.nextId, c, p, t, false⟩ : Message))]).map Prod.fst).Nodup := by
    rw [List.map_append]
    refine List.Nodup.append hk (List.nodup_singleton _) ?_
    intro a ha hb
    simp only [List.map_cons, List.map_nil, List.mem_singleton] at hb
    subst hb
    obtain ⟨pr, hpr, hfst⟩ := List.mem_map.mp ha
    have := (hs pr hpr).2
    omega
  have hflag2 : ∀ i ∈ q.queue ++ q.pending_ack,
      flagFree (q.store ++
        [(q.nextId, (⟨q.nextId, c, p, t, false⟩ : Message))]) i = true := by
    intro i hi
    have hf := hflag i hi
    unfold flagFree at hf ⊢
    cases hg : aget q.store i with
    | none =>
      rw [hg] at hf
      simp at hf
    | some mm =>
      rw [aget_append_left _ _ _ _ hg]
      rw [hg] at hf
      exact hf
  by_cases hfull : (0 < q.maxSize && q.maxSize ≤ q.queue.length) = true
  · rw [enqueue_full_eq q c p t hfull]
    exact ⟨hsOK, hkOK, hres, hflag2⟩
  · have hfull' : (0 < q.maxSize && q.maxSize ≤ q.queue.length) = false :=
      Bool.eq_false_iff.mpr hfull
    rw [enqueue_notFull_eq q c p t hfull']
    have hperm : ((q.queue ++ [q.nextId]) ++ q.pending_ack).Perm
        (q.nextId :: (q.queue ++ q.pending_ack)) := by
      rw [List.append_assoc]
      exact List.perm_middle
    refine ⟨hsOK, hkOK, ?_, ?_⟩
    · apply hperm.symm.nodup
      rw [List.nodup_cons]
      exact ⟨fun hc => absurd (hlt _ hc) (lt_irrefl _), hres⟩
    · intro i hi
      have hi' : i ∈ q.nextId :: (q.queue ++ q.pending_ack) :=
        (hperm.mem_iff).mp hi
      rcases List.mem_cons.mp hi' with hiN | hiR
      · subst hiN
        unfold flagFree
        rw [aget_append, aget_fresh q ⟨hs, hk, hres, hflag⟩]
        simp [aget]
      · exact hflag2 i hiR

theorem qinv_dequeue (q : MessageQueue) (t : Nat) (h : QInv q) :
    QInv (q.dequeue t).2 := by
  obtain ⟨hs, hk, hres, hflag⟩ := h
  cases hq : q.queue with
  | nil =>
    have hd : (q.dequeue t).2 = q := by
      simp [MessageQueue.dequeue, hq]
    rw [hd]
    exact ⟨hs, hk, hres, hflag⟩
  | cons i rest =>
    have hresq : ((i :: rest) ++ q.pending_ack).Nodup := by rwa [hq] at hres
    have hni : i ∉ q.pending_ack :=
      (List.disjoint_of_nodup_append hresq) (List.mem_cons_self _ _)
    have hd : (q.dequeue t).2 =
        ⟨q.maxSize, q.ack_timeout, rest, q.pending_ack ++ [i], q.store,
          q.nextId⟩ := by
      simp [MessageQueue.dequeue, hq, hni]
    rw [hd]
    have hperm : (rest ++ (q.pending_ack ++ [i])).Perm
        ((i :: rest) ++ q.pending_ack) := by
      rw [← List.append_assoc]
      exact List.perm_append_singleton _ _
    refine ⟨hs, hk, hperm.symm.nodup hresq, ?_⟩
    · intro j hj
      apply hflag
      rw [hq]
      exact (hperm.mem_iff).mp hj

theorem qinv_acknowledge (q : MessageQueue) (i : Nat) (h : QInv q) :
    QInv (q.acknowledge i).2 := by
  obtain ⟨hs, hk, hres, hflag⟩ := h
  by_cases hm : i ∈ q.pending_ack
  · have hiq : i ∉ q.queue :=
      fun hq => (List.disjoint_of_nodup_append hres) hq hm
    have hpnd : q.pending_ack.Nodup := List.Nodup.of_append_right hres
    have hsub : (q.queue ++ q.pending_ack.erase i).Sublist
        (q.queue ++ q.pending_ack) :=
      List.Sublist.append_left (List.erase_sublist _ _) _
    have hresE : (q.queue ++ q.pending_ack.erase i).Nodup := hsub.nodup hres
    cases hg : aget q.store i with
    | none =>
      have hd : (q.acknowledge i).2 =
          ⟨q.maxSize, q.ack_timeout, q.queue, q.pending_ack.erase i, q.store,
            q.nextId⟩ := by
        simp [MessageQueue.acknowledge, hm, hg]
      rw [hd]
      exact ⟨hs, hk, hresE, fun j hj => hflag j (hsub.subset hj)⟩
    | some mm =>
      have hd : (q.acknowledge i).2 =
          ⟨q.maxSize, q.ack_timeout, q.queue, q.pending_ack.erase i,
            aset q.store i { mm with acknowledged := true }, q.nextId⟩ := by
        simp [MessageQueue.acknowledge, hm, hg]
      rw [hd]
      have hmmid : mm.id = i := (hs _ (aget_mem _ _ _ hg)).1
      have hlt2 : i < q.nextId := (hs _ (aget_mem _ _ _ hg)).2
      refine ⟨?_, ?_, hresE, ?_⟩
      · intro pr hpr
        rcases mem_aset _ _ _ _ hpr with hpr | hpr
        · exact hs pr hpr
        · rw [hpr]
          exact ⟨hmmid, hlt2⟩
      · rw [akeys_aset]
        exact hk
      · intro j hj
        have hjne : j ≠ i := by
          rcases List.mem_append.mp hj with hjq | hjp
          · intro he
            subst he
            exact hiq hjq
          · intro he
            subst he
            exact ((List.Nodup.mem_erase_iff hpnd).mp hjp).1 rfl
        unfold flagFree
        rw [aget_aset_ne _ _ _ _ hjne]
        have hf := hflag j (hsub.subset hj)
        unfold flagFree at hf
        exact hf
  · have hd : (q.acknowledge i).2 = q := by
      simp [MessageQueue.acknowledge, hm]
    rw [hd]
    exact ⟨hs, hk, hres, hflag⟩

theorem qinv_requeueStep (now : Nat) (snap : List Nat) :
    ∀ q : MessageQueue, snap.Nodup → (∀ j ∈ snap, j ∈ q.pending_ack) →
    QInv q → QInv (requeueStep snap now q).2 := by
  induction snap with
  | nil =>
    intro q _ _ h
    exact h
  | cons i rest ih =>
    intro q hnd hsubs h
    obtain ⟨hs, hk, hres, hflag⟩ := h
    have hndr : rest.Nodup := (List.nodup_cons.mp hnd).2
    have hinotr : i ∉ rest := (List.nodup_cons.mp hnd).1
    have him : i ∈ q.pending_ack := hsubs i (List.mem_cons_self _ _)
    simp only [requeueStep]
    split
    next hg =>
      exact ih q hndr (fun j hj => hsubs j (List.mem_cons_of_mem _ hj))
        ⟨hs, hk, hres, hflag⟩
    next m hg =>
      split
      next hguard =>
        have hpnd : q.pending_ack.Nodup := List.Nodup.of_append_right hres
        have hq1inv : QInv ⟨q.maxSize, q.ack_timeout, q.queue,
            q.pending_ack.erase i, q.store, q.nextId⟩ := by
          have hsub : (q.queue ++ q.pending_ack.erase i).Sublist
              (q.queue ++ q.pending_ack) :=
            List.Sublist.append_left (List.erase_sublist _ _) _
          exact ⟨hs, hk, hsub.nodup hres, fun j hj => hflag j (hsub.subset hj)⟩
        split
        next hfull => exact hq1inv
        next hfull =>
          apply ih
          · exact hndr
          · intro j hj
            show j ∈ q.pending_ack.erase i
            have hjp := hsubs j (List.mem_cons_of_mem _ hj)
            have hjne : j ≠ i := fun he => hinotr (he ▸ hj)
            exact (List.mem_erase_of_ne hjne).mpr hjp
          · have hperm : ((q.queue ++ [i]) ++ q.pending_ack.erase i).Perm
                (q.queue ++ q.pending_ack) := by
              rw [List.append_assoc]
              exact List.Perm.append_left _ (List.perm_cons_erase him).symm
            exact ⟨hs, hk, hperm.symm.nodup hres,
              fun j hj => hflag j ((hperm.mem_iff).mp hj)⟩
      next hguard =>
        exact ih q hndr (fun j hj => hsubs j (List.mem_cons_of_mem _ hj))
          ⟨hs, hk, hres, hflag⟩

theorem qinv_requeue (q : MessageQueue) (now : Nat) (h : QInv q) :
    QInv (q.requeue_unacknowledged now).2 :=
  qinv_requeueStep now q.pending_ack q
    (List.Nodup.of_append_right h.2.2.1) (fun _ hj => hj) h

theorem qinv_applyQOp (q : MessageQueue) (op : QOp) (h : QInv q) :
    QInv (applyQOp q op) := by
  cases op with
  | enq c p t => exact qinv_enqueue q c p t h
  | deq t => exact qinv_dequeue q t h
  | ack i => exact qinv_acknowledge q i h
  | requeue t => exact qinv_requeue q t h

theorem qinv_init (c : Nat) : QInv (initQueue c) := by
  unfold QInv initQueue
  simp

theorem qinv_runQOps (c : Nat) (ops : List QOp) : QInv (runQOps c ops) := by
  unfold runQOps
  have hstep : ∀ (l : List QOp) (q : MessageQueue), QInv q →
      QInv (l.foldl applyQOp q) := by
    intro l
    induction l with
    | nil =>
      intro q h
      exact h
    | cons op rest ih =>
      intro q h
      exact ih _ (qinv_applyQOp q op h)
  exact hstep ops _ (qinv_init c)

/-- Claim C6 (confirmed): over every sequence of enqueue / dequeue /
acknowledge / reaper operations from a fresh queue of any capacity, each
envelope is in at most one state at any time: no envelope resident in
the deliverable queue or in the pending-acknowledgement index has its
acknowledged flag set, and no envelope id appears in both structures
simultaneously. -/
theorem c6_state_exclusivity (c : Nat) (ops : List QOp) :
    (∀ i ∈ (runQOps c ops).queue, ∀ m,
        aget (runQOps c ops).store i = some m → m.acknowledged = false) ∧
    (∀ i ∈ (runQOps c ops).pending_ack, ∀ m,
        aget (runQOps c ops).store i = some m → m.acknowledged = false) ∧
    (∀ i ∈ (runQOps c ops).queue, i ∉ (runQOps c ops).pending_ack) := by
  obtain ⟨hs, hk, hres, hflag⟩ := qinv_runQOps c ops
  have hdisj := List.disjoint_of_nodup_append hres
  refine ⟨?_, ?_, fun i hi hip => hdisj hi hip⟩
  · intro i hi m hm
    have hf := hflag i (List.mem_append.mpr (Or.inl hi))
    unfold flagFree at hf
    rw [hm] at hf
    simpa using hf
  · intro i hi m hm
    have hf := hflag i (List.mem_append.mpr (Or.inr hi))
    unfold flagFree at hf
    rw [hm] at hf
    simpa using hf

/-! ## PriorityQueue ordering and invariant -/

theorem keyLE_refl (a : Int × Nat × String) : keyLE a a :=
  Or.inr ⟨rfl, le_refl _⟩

theorem keyLE_of_lt (a b : Int × Nat × String) (h : keyLt a b = true) :
    keyLE a b := by
  unfold keyLt at h
  unfold keyLE
  simp only [Bool.or_eq_true, Bool.and_eq_true, decide_eq_true_eq,
    beq_iff_eq] at h
  rcases h with h | ⟨h1, h2⟩
  · exact Or.inl h
  · exact Or.inr ⟨h1, le_of_lt h2⟩

theorem keyLE_of_not_lt (a b : Int × Nat × String) (h : keyLt a b = false) :
    keyLE b a := by
  unfold keyLt at h
  unfold keyLE
  simp only [Bool.or_eq_false_iff, Bool.and_eq_false_iff,
    decide_eq_false_iff_not, not_lt, beq_eq_false_iff_ne, ne_eq] at h
  rcases h with ⟨h1, h2⟩
  rcases h2 with h2 | h2
  · exact Or.inl (lt_of_le_of_ne h1 (fun he => h2 he.symm))
  · rcases lt_or_eq_of_le h1 with h3 | h3
    · exact Or.inl h3
    · exact Or.inr ⟨h3, h2⟩

theorem keyLE_trans (a b c : Int × Nat × String) (h1 : keyLE a b)
    (h2 : keyLE b c) : keyLE a c := by
  unfold keyLE at h1 h2 ⊢
  rcases h1 with h1 | ⟨h1, h1'⟩ <;> rcases h2 with h2 | ⟨h2, h2'⟩
  · exact Or.inl (lt_trans h1 h2)
  · exact Or.inl (h2 ▸ h1)
  · exact Or.inl (h1 ▸ h2)
  · exact Or.inr ⟨h1.trans h2, h1'.trans h2'⟩

theorem findMin_eq_none (l : List (Int × Nat × String)) :
    findMin l = none ↔ l = [] := by
  cases l with
  | nil => simp [findMin]
  | cons x xs =>
    constructor
    · intro h
      have hsome := findMin_cons_isSome x xs
      rw [h] at hsome
      simp at hsome
    · intro h
      exact absurd h (List.cons_ne_nil x xs)

theorem findMin_mem (l : List (Int × Nat × String)) :
    ∀ x, findMin l = some x → x ∈ l := by
  induction l with
  | nil =>
    intro x h
    simp [findMin] at h
  | cons a as ih =>
    intro x h
    simp only [findMin] at h
    cases hf : findMin as with
    | none =>
      rw [hf] at h
      cases h
      exact List.mem_cons_self _ _
    | some y =>
      rw [hf] at h
      cases h
      by_cases hlt : keyLt y a = true
      · rw [if_pos hlt]
        exact List.mem_cons_of_mem _ (ih y hf)
      · rw [if_neg hlt]
        exact List.mem_cons_self _ _

theorem findMin_le (l : List (Int × Nat × String)) :
    ∀ x, findMin l = some x → ∀ y ∈ l, keyLE x y := by
  induction l with
  | nil =>
    intro x h
    simp [findMin] at h
  | cons a as ih =>
    intro x h y hy
    simp only [findMin] at h
    cases hf : findMin as with
    | none =>
      have hnil : as = [] := (findMin_eq_none as).mp hf
      rw [hf] at h
      cases h
      rcases List.mem_cons.mp hy with hya | hyas
      · rw [hya]
        exact keyLE_refl a
      · rw [hnil] at hyas
        cases hyas
    | some m =>
      rw [hf] at h
      cases h
      rcases List.mem_cons.mp hy with hya | hyas
      · by_cases hlt : keyLt m a = true
        · rw [if_pos hlt, hya]
          exact keyLE_of_lt m a hlt
        · rw [if_neg hlt, hya]
          exact keyLE_refl a
      · by_cases hlt : keyLt m a = true
        · rw [if_pos hlt]
          exact ih m hf y hyas
        · rw [if_neg hlt]
          have h1 : keyLE a m :=
            keyLE_of_not_lt m a (Bool.eq_false_iff.mpr hlt)
          exact keyLE_trans a m y h1 (ih m hf y hyas)

theorem pqinv_enqueue (pq : PriorityQueue) (p : Int) (s : String)
    (h : PQInv pq) : PQInv (pq.enqueue p s) := by
  obtain ⟨hlt, hnd⟩ := h
  constructor
  · intro e he
    simp only [PriorityQueue.enqueue] at he
    rcases List.mem_append.mp he with he | he
    · exact Nat.lt_succ_of_lt (hlt e he)
    · simp only [List.mem_singleton] at he
      rw [he]
      exact Nat.lt_succ_self _
  · show ((pq.queue ++ [(p, pq.counter, s)]).map (fun e => e.2.1)).Nodup
    rw [List.map_append]
    refine List.Nodup.append hnd (List.nodup_singleton _) ?_
    intro a ha hb
    simp only [List.map_cons, List.map_nil, List.mem_singleton] at hb
    subst hb
    obtain ⟨e, he, hfe⟩ := List.mem_map.mp ha
    have := hlt e he
    omega

theorem pqinv_dequeue (pq : PriorityQueue) (h : PQInv pq) :
    PQInv (match pq.dequeue with | none => pq | some (_, pq') => pq') := by
  cases hd : pq.dequeue with
  | none => exact h
  | some r =>
    obtain ⟨cs, pq'⟩ := r
    unfold PriorityQueue.dequeue at hd
    by_cases he : pq.is_empty = true
    · rw [if_pos he] at hd
      simp at hd
    · rw [if_neg he] at hd
      cases hfm : findMin pq.queue with
      | none =>
        rw [hfm] at hd
        simp at hd
      | some x =>
        rw [hfm] at hd
        simp only [Option.some.injEq, Prod.mk.injEq] at hd
        obtain ⟨h1, h2⟩ := hd
        rw [← h2]
        obtain ⟨hlt, hnd⟩ := h
        constructor
        · intro e he2
          exact hlt e ((List.erase_sublist _ _).subset he2)
        · exact ((List.erase_sublist x pq.queue).map _).nodup hnd

theorem pqinv_applyPOp (pq : PriorityQueue) (op : POp) (h : PQInv pq) :
    PQInv (applyPOp pq op) := by
  cases op with
  | enq p s => exact pqinv_enqueue pq p s h
  | deq => exact pqinv_dequeue pq h
  | clear =>
    exact ⟨fun e he => absurd he (List.not_mem_nil e), List.nodup_nil⟩

theorem pqinv_runPOps (ops : List POp) : PQInv (runPOps ops) := by
  unfold runPOps
  have hstep : ∀ (l : List POp) (pq : PriorityQueue), PQInv pq →
      PQInv (l.foldl applyPOp pq) := by
    intro l
    induction l with
    | nil =>
      intro pq h
      exact h
    | cons op rest ih =>
      intro pq h
      exact ih _ (pqinv_applyPOp pq op h)
  refine hstep ops _ ?_
  exact ⟨fun e he => absurd he (List.not_mem_nil e), List.nodup_nil⟩

/-- Claim C7 (confirmed): PriorityQueue dequeue removes the element whose
`(priority, insertion-sequence)` key is lexicographically smallest and
returns its `(counter, message)` slice; every enqueue bumps the insertion
counter by one and stores the pre-increment value, and over all operation
sequences the stored sequence numbers stay pairwise distinct and below
the counter (so within an epoch between clears a sequence number is
never reused); enqueueing (5,"a"), (1,"b"), (5,"c") into an empty queue
dequeues b, a, c — strict priority order with FIFO tie-break. -/
theorem c7_priority_order :
    (∀ ops : List POp, PQInv (runPOps ops)) ∧
    (∀ (pq : PriorityQueue) (cs : Nat × String) (pq' : PriorityQueue),
        pq.dequeue = some (cs, pq') →
        ∃ x, x ∈ pq.queue ∧ x.2 = cs ∧ (∀ y ∈ pq.queue, keyLE x y) ∧
          pq'.queue = pq.queue.erase x) ∧
    (∀ (pq : PriorityQueue) (p : Int) (s : String),
        (pq.enqueue p s).counter = pq.counter + 1 ∧
        (pq.enqueue p s).queue = pq.queue ++ [(p, pq.counter, s)]) ∧
    ((((⟨[], 0⟩ : PriorityQueue).enqueue 5 "a").enqueue 1 "b").enqueue 5
        "c").dequeue = some ((1, "b"), ⟨[(5, 0, "a"), (5, 2, "c")], 3⟩) ∧
    (⟨[(5, 0, "a"), (5, 2, "c")], 3⟩ : PriorityQueue).dequeue =
      some ((0, "a"), ⟨[(5, 2, "c")], 3⟩) ∧
    (⟨[(5, 2, "c")], 3⟩ : PriorityQueue).dequeue =
      some ((2, "c"), ⟨[], 3⟩) := by
  refine ⟨pqinv_runPOps, ?_, fun pq p s => ⟨rfl, rfl⟩, by decide, by decide,
    by decide⟩
  intro pq cs pq' hd
  unfold PriorityQueue.dequeue at hd
  by_cases he : pq.is_empty = true
  · rw [if_pos he] at hd
    simp at hd
  · rw [if_neg he] at hd
    cases hfm : findMin pq.queue with
    | none =>
      rw [hfm] at hd
      simp at hd
    | some x =>
      rw [hfm] at hd
      simp only [Option.some.injEq, Prod.mk.injEq] at hd
      obtain ⟨h1, h2⟩ := hd
      refine ⟨x, findMin_mem _ x hfm, h1, findMin_le _ x hfm, ?_⟩
      rw [← h2]

/-- Claim C7 witness: the invariant holds on the queue reached by
enqueueing two messages and dequeueing one. -/
theorem c7_priority_order_witness :
    PQInv (runPOps [POp.enq 5 "a", POp.enq 1 "b", POp.deq]) :=
  c7_priority_order.1 [POp.enq 5 "a", POp.enq 1 "b", POp.deq]

end RTMS
